import Mathlib

/-!
Verification of the core algorithms of the absolute-solver repository.

The four source modules (main.rs pose estimation, selection.rs, mover.rs,
ring.rs) are shallowly embedded below.  `f32` arithmetic is modelled exactly
over the reals; remote (async) calls are modelled by passing their outcomes
in explicitly as data, and the side effects of a call are returned as
explicit output fields or operation traces.
-/

namespace AbsoluteSolver

noncomputable section

/-- A 3-component vector, modelling `glam::Vec3` / `glam::Vec3A` over ℝ. -/
structure V3 where
  x : ℝ
  y : ℝ
  z : ℝ

namespace V3

/-- Component-wise addition (`glam` vector `+`). -/
def add (a b : V3) : V3 := ⟨a.x + b.x, a.y + b.y, a.z + b.z⟩

/-- Component-wise subtraction (`glam` vector `-`). -/
def sub (a b : V3) : V3 := ⟨a.x - b.x, a.y - b.y, a.z - b.z⟩

/-- Component-wise negation (`glam` vector unary `-`). -/
def neg (a : V3) : V3 := ⟨-a.x, -a.y, -a.z⟩

/-- Scalar multiplication (`glam` `vec * s`). -/
def smul (r : ℝ) (a : V3) : V3 := ⟨r * a.x, r * a.y, r * a.z⟩

/-- Scalar division (`glam` `vec / s`). -/
def divScalar (a : V3) (r : ℝ) : V3 := ⟨a.x / r, a.y / r, a.z / r⟩

/-- Dot product (`glam` `Vec3::dot`). -/
def dot (a b : V3) : ℝ := a.x * b.x + a.y * b.y + a.z * b.z

/-- Cross product (`glam` `Vec3::cross`). -/
def cross (a b : V3) : V3 :=
  ⟨a.y * b.z - a.z * b.y, a.z * b.x - a.x * b.z, a.x * b.y - a.y * b.x⟩

/-- Squared length (`glam` `Vec3::length_squared`). -/
def lengthSq (a : V3) : ℝ := dot a a

/-- Length (`glam` `Vec3::length`), `sqrt (self.dot self)`. -/
noncomputable def length (a : V3) : ℝ := Real.sqrt (dot a a)

/-- Distance (`glam` `Vec3::distance`), `(self - rhs).length()`. -/
noncomputable def dist (a b : V3) : ℝ := (sub a b).length

/-- Squared distance (`glam` `Vec3::distance_squared`),
`(self - rhs).length_squared()`. -/
def distSq (a b : V3) : ℝ := (sub a b).lengthSq

/-- Normalization (`glam` `Vec3::normalize`), `self * self.length().recip()`. -/
noncomputable def normalize (a : V3) : V3 := smul (1 / a.length) a

/-- Linear interpolation (`glam` `Vec3::lerp`), `self + (rhs - self) * s`. -/
def lerp (a b : V3) (s : ℝ) : V3 := add a (smul s (sub b a))

end V3

/-- A quaternion, modelling `glam::Quat` over ℝ. -/
structure QuatR where
  w : ℝ
  x : ℝ
  y : ℝ
  z : ℝ

namespace QuatR

/-- `glam::Quat::IDENTITY`. -/
def identity : QuatR := ⟨1, 0, 0, 0⟩

/-- The vector part of a quaternion (`b` in `glam`'s `mul_vec3`). -/
def xyz (q : QuatR) : V3 := ⟨q.x, q.y, q.z⟩

/-- Rotation of a vector by a quaternion, `glam::Quat::mul_vec3`:
`rhs * (w² - b·b) + b * (rhs·b * 2) + (b × rhs) * (w * 2)`. -/
def mulVec3 (q : QuatR) (v : V3) : V3 :=
  V3.add
    (V3.add (V3.smul (q.w * q.w - V3.dot q.xyz q.xyz) v)
      (V3.smul (V3.dot v q.xyz * 2) q.xyz))
    (V3.smul (q.w * 2) (V3.cross q.xyz v))

end QuatR

/-! ## Pose estimator (`main.rs`, `get_position_and_normal_from_triangle`,
lines 258-275).  The returned orientation quaternion is built from the
intermediate `normal`; the claims only concern the point and that normal, so
the embedding returns those two values. -/

/-- `main.rs` lines 260-263: `point_a = ((bc * a) + (ca * b) + (ab * c)) / (ab + bc + ca)`
with `ab`, `bc`, `ca` the squared pairwise distances. -/
def trianglePointA (a b c : V3) : V3 :=
  let ab := V3.distSq a b
  let bc := V3.distSq b c
  let ca := V3.distSq c a
  V3.divScalar (V3.add (V3.add (V3.smul bc a) (V3.smul ca b)) (V3.smul ab c)) (ab + bc + ca)

/-- `main.rs` lines 264-267: the second estimate, each vertex weighted by its
squared distance to `point_a`. -/
def trianglePoint2 (a b c : V3) : V3 :=
  let pa := trianglePointA a b c
  let a_dist := V3.distSq a pa
  let b_dist := V3.distSq b pa
  let c_dist := V3.distSq c pa
  V3.divScalar (V3.add (V3.add (V3.smul a_dist a) (V3.smul b_dist b)) (V3.smul c_dist c))
    (a_dist + b_dist + c_dist)

/-- `main.rs` line 268: `point.lerp(point_a, 0.5)`. -/
def triangleFinalPoint (a b c : V3) : V3 :=
  V3.lerp (trianglePoint2 a b c) (trianglePointA a b c) 0.5

/-- `main.rs` lines 269-271: `normal = (b - a).cross(c - a).normalize()`. -/
noncomputable def triangleNormal (a b c : V3) : V3 :=
  V3.normalize (V3.cross (V3.sub b a) (V3.sub c a))

/-- The first estimate exactly as the spec words it: `P1 = (bc·A + ca·B + ab·C)
/ (ab+bc+ca)`, with the division written as scaling by the inverse of the
weight sum. -/
def specP1 (a b c : V3) : V3 :=
  let ab := V3.distSq a b
  let bc := V3.distSq b c
  let ca := V3.distSq c a
  V3.smul (1 / (ab + bc + ca)) (V3.add (V3.add (V3.smul bc a) (V3.smul ca b)) (V3.smul ab c))

/-- The second estimate exactly as the spec words it: the average of A, B, C
weighted by each vertex's squared distance to `P1`. -/
def specP2 (a b c : V3) : V3 :=
  let wa := V3.distSq a (specP1 a b c)
  let wb := V3.distSq b (specP1 a b c)
  let wc := V3.distSq c (specP1 a b c)
  V3.smul (1 / (wa + wb + wc)) (V3.add (V3.add (V3.smul wa a) (V3.smul wb b)) (V3.smul wc c))

/-- The final point exactly as the spec words it: the linear interpolation of
`P2` toward `P1` at factor 0.5, written `(1 - 0.5)·P2 + 0.5·P1`. -/
def specFinalPoint (a b c : V3) : V3 :=
  V3.add (V3.smul (1 - 0.5) (specP2 a b c)) (V3.smul 0.5 (specP1 a b c))

/-! ## Mover (`mover.rs`, `Mover::update`, lines 37-69).  Per frame the
managed object's transform is decomposed relative to the anchor; the radial
distance is blended by `target_len.lerp(sel_len, 0.95)` (line 61) and written
back onto the managed object.  The radial component is embedded exactly; the
two `slerp` components use the same 0.95 ratio. -/

/-- `glam::FloatExt::lerp` for `f32`: `self + (rhs - self) * t`. -/
def moverLerp (a b t : ℝ) : ℝ := a + (b - a) * t

/-- `mover.rs` line 61: `let len = target_len.lerp(sel_len, lerp_factor)` with
`lerp_factor = 0.95` (line 54).  The result is applied as the managed
object's new radial distance (lines 62-68). -/
def moverStepLen (target_len sel_len : ℝ) : ℝ := moverLerp target_len sel_len 0.95

/-- The managed object's radial distance after `n` calls to `Mover::update`,
with the tracked target's radial distance held constant. -/
def moverRadius (target_len sel_len : ℝ) : ℕ → ℝ
  | 0 => sel_len
  | n + 1 => moverStepLen target_len (moverRadius target_len sel_len n)

/-! ## Selector (`selection.rs`).  A registry candidate is a tuple
`(SpatialRef, ReparentableProxy, ReparentLockProxy, Option<FieldRef>)`; the
remote calls made against it during `update_selection` (`ray_march` for a
candidate with a field, `get_transform` otherwise, and the bounding-box
query for the visualization) are asynchronous, so their outcomes are carried
in the candidate record as data. -/

/-- `selection.rs` `Ray` (lines 221-226); the reference space is implicit in
the embedding since all positions are already expressed in it. -/
structure Ray where
  origin : V3
  direction : V3

/-- The result of `FieldRef::ray_march` (`selection.rs` lines 119-129). -/
structure RayMarchResult where
  min_distance : ℝ
  deepest_point_distance : ℝ

/-- The remote data of one candidate, as `update_selection` observes it:
either it has a field and `ray_march` returns `res` (`none` = the call
failed), or it has no field and `get_transform` yields `translation`
(`none` = the call failed or carried no translation). -/
inductive CandRemote where
  | withField : Option RayMarchResult → CandRemote
  | noField : Option V3 → CandRemote

/-- A bounding box as returned by the spatial service (center and size,
cf. `selection.rs` lines 96-98). -/
structure BBox where
  center : V3
  size : V3

/-- One candidate of the object-registry feed, with the outcomes of the
remote calls `update_selection` may make against it: `remote` for scoring
and `bb` for `get_relative_bounding_box` (`none` = the query fails,
`selection.rs` lines 175-183). -/
structure Candidate where
  id : ℕ
  remote : CandRemote
  bb : Option BBox

/-- `selection.rs` lines 118-153: the per-candidate selection score.
A field candidate is rejected when `ray_march` fails or
`min_distance > 0.0`, and scores `deepest_point_distance` otherwise.
A field-less candidate is rejected when `get_transform` fails, when the
projection of its position onto the ray direction is negative
(`is_sign_negative`), or when its distance from the ray exceeds
`ray_distance * 0.1`; otherwise it scores
`distance_from_ray + ray_distance`.  (The `let` bindings of the source are
inlined.) -/
def scoreCandidate (ray : Ray) (c : CandRemote) : Option ℝ :=
  match c with
  | .withField none => none
  | .withField (some r) => if r.min_distance > 0 then none else some r.deepest_point_distance
  | .noField none => none
  | .noField (some pos) =>
      if V3.dot (V3.sub pos ray.origin) ray.direction < 0 then none
      else if V3.dist pos
              (V3.add ray.origin
                (V3.smul (V3.dot (V3.sub pos ray.origin) ray.direction) ray.direction))
            > V3.dot (V3.sub pos ray.origin) ray.direction * 0.1 then none
      else some (V3.dist pos
              (V3.add ray.origin
                (V3.smul (V3.dot (V3.sub pos ray.origin) ray.direction) ray.direction))
            + V3.dot (V3.sub pos ray.origin) ray.direction)

/-- `selection.rs` lines 154-159: `closest_target` is replaced exactly when
it is `none` or the new distance is strictly smaller. -/
def selReplaceIfCloser (acc : Option (ℝ × Candidate)) (p : ℝ × Candidate) :
    Option (ℝ × Candidate) :=
  match acc with
  | none => some p
  | some best => if p.1 < best.1 then some p else acc

/-- The `closest_target` accumulation loop of `update_selection`
(`selection.rs` lines 116-160): each candidate is scored, a candidate whose
score computation bails out (`continue`) is skipped, and a surviving one
replaces the accumulator per `selReplaceIfCloser`. -/
def closestFold (ray : Ray) (cands : List Candidate) : Option (ℝ × Candidate) :=
  cands.foldl
    (fun acc c =>
      match scoreCandidate ray c.remote with
      | none => acc
      | some d => selReplaceIfCloser acc (d, c))
    none

/-- The surviving candidates of one `update_selection` pass, paired with
their scores, in iteration order. -/
def scored (ray : Ray) (cands : List Candidate) : List (ℝ × Candidate) :=
  cands.filterMap fun c => (scoreCandidate ray c.remote).map fun d => (d, c)

/-- The observable outcome of `update_selection`: the stored best candidate
(`self.selection`, line 162), the visualization content (`some bb` = the
bounding-box outline was drawn, `none` = `set_lines(&[])` cleared it), and
whether the `warn!` diagnostic fired (line 180). -/
structure SelOut where
  selection : Option Candidate
  lines : Option BBox
  warned : Bool

/-- `selection.rs` lines 161-188: the selection is set to the fold's winner;
with no winner the visualization is cleared; with a winner whose bounding-box
query fails the visualization is cleared and a warning is emitted; otherwise
the winner's bounding box is drawn. -/
def update_selection (ray : Ray) (cands : List Candidate) : SelOut :=
  match closestFold ray cands with
  | none => ⟨none, none, false⟩
  | some (_, c) =>
      match c.bb with
      | none => ⟨some c, none, true⟩
      | some bb => ⟨some c, some bb, false⟩

/-- The remote operations `capture_selected` performs, in order
(`selection.rs` lines 73-114).  `unlock` appears for completeness: inside
`capture_selected` it is never issued (only `CapturedSelection::drop`,
lines 206-218, unlocks). -/
inductive SelOp where
  | lock
  | unlock
  | createAnchor
  | setAnchorTransform
  | exportAnchor
  | reparent
  | clearLines
  | enableTargetModel
  | localBBQuery
  | placeTargetModel
deriving DecidableEq

/-- `selection.rs` lines 192-198: the handle returned by a successful
capture, holding the candidate's proxies. -/
structure CapturedSelection where
  candidate : Candidate

/-- Outcomes of the remote calls `capture_selected` makes:
`reparent_lock.lock()` (line 75), `Spatial::create` (line 79),
`export_spatial` (line 91) and `get_local_bounding_box` (line 96). -/
structure CaptureOracles where
  lock_ok : Bool
  create_ok : Bool
  export_ok : Bool
  local_bb : Option BBox

/-- The `Selector` state relevant to capture: `self.selection`
(`selection.rs` line 32). -/
structure SelectorState where
  selection : Option Candidate

/-- `selection.rs` lines 73-114, `Selector::capture_selected`, returning the
new selector state, the optional capture, and the trace of remote operations
performed.  `self.selection.take()?` runs first (line 74); each fallible
step after the lock simply returns `None` via `.ok()?` without any
compensating call. -/
def capture_selected (st : SelectorState) (o : CaptureOracles) :
    SelectorState × Option CapturedSelection × List SelOp :=
  match st.selection with
  | none => (⟨none⟩, none, [])
  | some c =>
      if o.lock_ok = false then (⟨none⟩, none, [SelOp.lock])
      else if o.create_ok = false then (⟨none⟩, none, [SelOp.lock, SelOp.createAnchor])
      else if o.export_ok = false then
        (⟨none⟩, none,
          [SelOp.lock, SelOp.createAnchor, SelOp.setAnchorTransform, SelOp.exportAnchor])
      else
        match o.local_bb with
        | none =>
            (⟨none⟩, none,
              [SelOp.lock, SelOp.createAnchor, SelOp.setAnchorTransform, SelOp.exportAnchor,
                SelOp.reparent, SelOp.clearLines, SelOp.enableTargetModel, SelOp.localBBQuery])
        | some _ =>
            (⟨none⟩, some ⟨c⟩,
              [SelOp.lock, SelOp.createAnchor, SelOp.setAnchorTransform, SelOp.exportAnchor,
                SelOp.reparent, SelOp.clearLines, SelOp.enableTargetModel, SelOp.localBBQuery,
                SelOp.placeTargetModel])

/-! ## Ring (`ring.rs`).  Input events are the per-frame `InputData` list;
each is paired with its `InputMethodRef`, identified here by a number.
`try_capture` outcomes are passed in as an oracle. -/

/-- The variants of `InputDataType` used by `ring.rs`: `Pointer`, `Tip`
(origin and orientation), and `Hand` (only the wrist joint's position and
rotation are read by the ring, lines 105, 137-138, 173-175). -/
inductive InputDataType where
  | pointer : InputDataType
  | tip : V3 → QuatR → InputDataType
  | hand : V3 → QuatR → InputDataType

/-- One input event: its data variant and the device-reported distance
score (`InputData::distance`). -/
structure InputData where
  input : InputDataType
  distance : ℝ

/-- An `InputMethodRef`, identified by number. -/
abbrev MethodId := ℕ

/-- The attach point derived from a tip, `ring.rs` lines 102-103 / 173:
`tip.origin + quat.mul_vec3(Vec3::Z * 0.05)`. -/
def tipGrabPoint (origin : V3) (q : QuatR) : V3 :=
  V3.add origin (QuatR.mulVec3 q (V3.smul 0.05 ⟨0, 0, 1⟩))

/-- The tip attach point as the frozen claim words it: the tip's origin
offset 0.05 m along the tip's forward axis, with forward = `-Z` as this
codebase uses it everywhere else (`main.rs` line 138 `tip.orientation *
Vec3::NEG_Z` as the pointing direction, `mover.rs` lines 30/57 `Vec3::NEG_Z`
as the forward axis). -/
def claimTipForwardPoint (origin : V3) (q : QuatR) : V3 :=
  V3.add origin (QuatR.mulVec3 q (V3.smul 0.05 ⟨0, 0, -1⟩))

/-- `ring.rs` lines 169-176: the filter predicate of
`get_input_to_capture`.  Pointer inputs never qualify; a tip qualifies when
the handle position is within 0.05 of `tipGrabPoint`; a hand qualifies when
the handle position is within 0.05 of the wrist position. -/
def ringQualifies (pos : V3) (i : InputDataType) : Bool :=
  match i with
  | .pointer => false
  | .tip origin orientation => decide (V3.dist pos (tipGrabPoint origin orientation) < 0.05)
  | .hand wrist _ => decide (V3.dist pos wrist < 0.05)

/-- `ring.rs` line 177: the `reduce` closure
`|a, b| if a.0.distance < b.0.distance { a } else { b }`. -/
def ringMinStep (a b : InputData × MethodId) : InputData × MethodId :=
  if a.1.distance < b.1.distance then a else b

/-- `Iterator::reduce` over the qualifying inputs: `none` on an empty list,
otherwise the fold of `ringMinStep` with the first element as accumulator. -/
def ringReduce (l : List (InputData × MethodId)) : Option (InputData × MethodId) :=
  match l with
  | [] => none
  | h :: t => some (t.foldl ringMinStep h)

/-- `ring.rs` lines 165-178, `Ring::get_input_to_capture`. -/
def get_input_to_capture (pos : V3) (inputs : List (InputData × MethodId)) :
    Option (InputData × MethodId) :=
  ringReduce (inputs.filter fun p => ringQualifies pos p.1.input)

/-- The grab gesture's per-frame phase flags (`SingleAction`:
`actor_started`, `actor_acting`, `actor_stopped`). -/
structure FrameGrab where
  actor_started : Bool
  actor_acting : Bool
  actor_stopped : Bool

/-- `ring.rs` lines 131-140: the pose applied to the grab handle from the
attached input. -/
def ringPose (i : InputDataType) : V3 × QuatR :=
  match i with
  | .pointer => (⟨0, 0, 0⟩, QuatR.identity)
  | .tip origin q => (tipGrabPoint origin q, q)
  | .hand wrist rot => (wrist, rot)

/-- `ring.rs` lines 154-164, `Ring::get_attached_input`: the current input
event whose method matches the attached reference. -/
def getAttachedInput (attached : Option MethodId) (inputs : List (InputData × MethodId)) :
    Option (InputData × MethodId) :=
  attached.bind fun a => inputs.find? fun p => p.2 == a

/-- The observable outcome of one `Ring::update` pass: the new
`attached_to` state, which method was released (`on_detach`, line 151),
which method a `try_capture` was issued against (`on_attach`, line 145),
whether the attach-preview line was drawn (lines 96-124), and the pose set
on the grab handle (lines 130-142). -/
structure RingOut where
  attached_to : Option MethodId
  released : Option MethodId
  capture_tried : Option MethodId
  attach_line : Bool
  set_pose : Option (V3 × QuatR)

/-- `ring.rs` lines 82-143, `Ring::update`, for a frame on which both event
pumps succeed (lines 83-88 return early, with no state change, otherwise).
Step order follows the source: detach on a grab start while attached
(lines 90-92), compute the nearest attachable input (line 95), drive the
attach-preview line while the grab is held (lines 96-124), try-capture on a
grab stop with a candidate (lines 125-129, state changes only when
`try_capture` succeeds), and finally pose the handle from the attached
input (lines 130-142). -/
def ringUpdate (attached0 : Option MethodId) (grab : FrameGrab) (pos : V3)
    (inputs : List (InputData × MethodId)) (capture_ok : MethodId → Bool) : RingOut :=
  let detach := grab.actor_started && attached0.isSome
  let st1 : Option MethodId := if detach then none else attached0
  let released : Option MethodId := if detach then attached0 else none
  let attaching_to := get_input_to_capture pos inputs
  let attach_line := grab.actor_acting && attaching_to.isSome
  let tried : Option MethodId :=
    if grab.actor_stopped then attaching_to.map (fun p => p.2) else none
  let st2 : Option MethodId :=
    match tried with
    | some m => if capture_ok m then some m else st1
    | none => st1
  let posed := (getAttachedInput st2 inputs).map fun p => ringPose p.1.input
  ⟨st2, released, tried, attach_line, posed⟩

/-! ## Concrete instances used by the boundary claims. -/

/-- The end-to-end test ray: origin at the reference origin, direction `+X`
(a unit vector). -/
def coneRay : Ray := ⟨⟨0, 0, 0⟩, ⟨1, 0, 0⟩⟩

/-- A field-less candidate on the ray axis at `t = 10`. -/
def candAxis : Candidate := ⟨1, CandRemote.noField (some ⟨10, 0, 0⟩), none⟩

/-- A field-less candidate at `t = 10`, `perp = 0.99`. -/
def candOff : Candidate := ⟨0, CandRemote.noField (some ⟨10, 0.99, 0⟩), none⟩

/-- A field-less candidate at `(5, 0, 0)` whose bounding-box query fails. -/
def candFive : Candidate := ⟨2, CandRemote.noField (some ⟨5, 0, 0⟩), none⟩

/-- A candidate used for the capture-path claims; its remote data is never
consulted by `capture_selected`. -/
def leakCand : Candidate := ⟨0, CandRemote.noField none, none⟩

end

/-! ## Helper lemmas. -/

theorem V3.dot_self_nonneg (v : V3) : 0 ≤ V3.dot v v := by
  unfold V3.dot
  nlinarith [mul_self_nonneg v.x, mul_self_nonneg v.y, mul_self_nonneg v.z]

theorem V3.dot_self_eq_zero (v : V3) : V3.dot v v = 0 ↔ v = ⟨0, 0, 0⟩ := by
  constructor
  · intro h
    unfold V3.dot at h
    have hx : v.x = 0 := by nlinarith [mul_self_nonneg v.x, mul_self_nonneg v.y, mul_self_nonneg v.z]
    have hy : v.y = 0 := by nlinarith [mul_self_nonneg v.x, mul_self_nonneg v.y, mul_self_nonneg v.z]
    have hz : v.z = 0 := by nlinarith [mul_self_nonneg v.x, mul_self_nonneg v.y, mul_self_nonneg v.z]
    cases v
    simp_all
  · intro h
    subst h
    simp [V3.dot]

theorem V3.length_nonneg (v : V3) : 0 ≤ V3.length v := Real.sqrt_nonneg _

theorem V3.length_pos (v : V3) (h : v ≠ ⟨0, 0, 0⟩) : 0 < V3.length v := by
  unfold V3.length
  refine Real.sqrt_pos.mpr ?_
  rcases lt_or_eq_of_le (V3.dot_self_nonneg v) with hlt | heq
  · exact hlt
  · exact absurd ((V3.dot_self_eq_zero v).mp heq.symm) h

theorem V3.length_smul (k : ℝ) (v : V3) : V3.length (V3.smul k v) = |k| * V3.length v := by
  unfold V3.length V3.smul V3.dot
  rw [show k * v.x * (k * v.x) + k * v.y * (k * v.y) + k * v.z * (k * v.z)
      = k ^ 2 * (v.x * v.x + v.y * v.y + v.z * v.z) by ring]
  rw [Real.sqrt_mul (sq_nonneg k), Real.sqrt_sq_eq_abs]

theorem V3.length_neg (v : V3) : V3.length (V3.neg v) = V3.length v := by
  unfold V3.length V3.neg V3.dot
  norm_num

theorem V3.dist_eq (a b : V3) :
    V3.dist a b = Real.sqrt ((a.x - b.x) ^ 2 + (a.y - b.y) ^ 2 + (a.z - b.z) ^ 2) := by
  unfold V3.dist V3.length V3.sub V3.dot
  congr 1
  ring

theorem V3.dist_self (a : V3) : V3.dist a a = 0 := by
  rw [V3.dist_eq]
  simp

theorem QuatR.identity_mulVec3 (v : V3) : QuatR.mulVec3 QuatR.identity v = v := by
  cases v with
  | mk vx vy vz =>
      unfold QuatR.mulVec3 QuatR.identity QuatR.xyz V3.dot V3.cross V3.smul V3.add
      simp only [V3.mk.injEq]
      refine ⟨by ring, by ring, by ring⟩

/-- The normalized vector of a nonzero vector has unit length. -/
theorem V3.length_normalize (v : V3) (h : v ≠ ⟨0, 0, 0⟩) : V3.length (V3.normalize v) = 1 := by
  have hpos := V3.length_pos v h
  unfold V3.normalize
  rw [V3.length_smul, abs_of_pos (by positivity : (0:ℝ) < 1 / V3.length v)]
  field_simp

theorem V3.dot_smul_left (k : ℝ) (a b : V3) : V3.dot (V3.smul k a) b = k * V3.dot a b := by
  unfold V3.dot V3.smul
  ring

theorem V3.dot_cross_left (a b : V3) : V3.dot (V3.cross a b) a = 0 := by
  unfold V3.dot V3.cross
  ring

theorem V3.dot_cross_right (a b : V3) : V3.dot (V3.cross a b) b = 0 := by
  unfold V3.dot V3.cross
  ring

theorem V3.normalize_neg (v : V3) : V3.normalize (V3.neg v) = V3.neg (V3.normalize v) := by
  unfold V3.normalize
  rw [V3.length_neg]
  unfold V3.smul V3.neg
  simp only [V3.mk.injEq]
  refine ⟨by ring, by ring, by ring⟩

/-- Reversing the point order negates the (unnormalized) triangle cross
product: `(b - c) × (a - c) = -((b - a) × (c - a))`. -/
theorem cross_reverse (a b c : V3) :
    V3.cross (V3.sub b c) (V3.sub a c) = V3.neg (V3.cross (V3.sub b a) (V3.sub c a)) := by
  unfold V3.cross V3.sub V3.neg
  simp only [V3.mk.injEq]
  refine ⟨by ring, by ring, by ring⟩

/-- Characterization of the ring's `reduce` fold: the fold of `ringMinStep`
over `t` starting from `h` yields an element of `h :: t` whose distance is
minimal, and every element strictly after it in the list has strictly
greater distance (the last minimum wins). -/
theorem ringFold_spec (t : List (InputData × MethodId)) :
    ∀ h : InputData × MethodId,
      t.foldl ringMinStep h ∈ h :: t
      ∧ (∀ q ∈ h :: t, (t.foldl ringMinStep h).1.distance ≤ q.1.distance)
      ∧ ∃ l1 l2, h :: t = l1 ++ (t.foldl ringMinStep h) :: l2
          ∧ ∀ q ∈ l2, (t.foldl ringMinStep h).1.distance < q.1.distance := by
  induction t with
  | nil =>
      intro h
      refine ⟨List.mem_cons_self _ _, ?_, [], [], rfl, ?_⟩
      · intro q hq
        rw [List.mem_singleton] at hq
        subst hq
        exact le_refl _
      · intro q hq
        simp at hq
  | cons b t ih =>
      intro h
      have hfold : (b :: t).foldl ringMinStep h = t.foldl ringMinStep (ringMinStep h b) := rfl
      by_cases hab : h.1.distance < b.1.distance
      · have hstep : ringMinStep h b = h := by
          unfold ringMinStep
          rw [if_pos hab]
        rw [hfold, hstep]
        obtain ⟨hmem, hmin, l1, l2, hdec, hstrict⟩ := ih h
        refine ⟨?_, ?_, ?_⟩
        · rcases List.mem_cons.mp hmem with heq | hmem2
          · exact List.mem_cons.mpr (Or.inl heq)
          · exact List.mem_cons_of_mem _ (List.mem_cons_of_mem _ hmem2)
        · intro q hq
          rcases List.mem_cons.mp hq with heq | hq2
          · subst heq
            exact hmin _ (List.mem_cons_self _ _)
          · rcases List.mem_cons.mp hq2 with heq | hq3
            · subst heq
              exact le_of_lt (lt_of_le_of_lt (hmin _ (List.mem_cons_self _ _)) hab)
            · exact hmin _ (List.mem_cons_of_mem _ hq3)
        · cases l1 with
          | nil =>
              simp only [List.nil_append] at hdec
              have hr : t.foldl ringMinStep h = h := (((List.cons.injEq _ _ _ _).mp hdec).1).symm
              have hl2 : l2 = t := (((List.cons.injEq _ _ _ _).mp hdec).2).symm
              refine ⟨[], b :: l2, ?_, ?_⟩
              · simp only [List.nil_append, hl2]
                rw [hr]
              · intro q hq
                rcases List.mem_cons.mp hq with heq | hq2
                · subst heq
                  rw [hr]
                  exact hab
                · exact hstrict _ hq2
          | cons h1 t1 =>
              have ht : t = t1 ++ (t.foldl ringMinStep h) :: l2 :=
                ((List.cons.injEq _ _ _ _).mp hdec).2
              refine ⟨h :: b :: t1, l2, ?_, hstrict⟩
              simp only [List.cons_append]
              rw [← ht]
      · have hstep : ringMinStep h b = b := by
          unfold ringMinStep
          rw [if_neg hab]
        have hba : b.1.distance ≤ h.1.distance := le_of_not_lt hab
        rw [hfold, hstep]
        obtain ⟨hmem, hmin, l1, l2, hdec, hstrict⟩ := ih b
        refine ⟨List.mem_cons_of_mem _ hmem, ?_, ?_⟩
        · intro q hq
          rcases List.mem_cons.mp hq with heq | hq2
          · subst heq
            exact le_trans (hmin _ (List.mem_cons_self _ _)) hba
          · exact hmin _ hq2
        · exact ⟨h :: l1, l2, by simp only [List.cons_append]; rw [← hdec], hstrict⟩

/-- Characterization of the selector's accumulation: folding
`selReplaceIfCloser` over `l` starting from `some a` yields an element of
`a :: l` whose score is minimal, and every element strictly before it has
strictly greater score (the first minimum wins). -/
theorem selFold_spec (l : List (ℝ × Candidate)) :
    ∀ a : ℝ × Candidate,
      ∃ r, l.foldl selReplaceIfCloser (some a) = some r
        ∧ r ∈ a :: l
        ∧ (∀ q ∈ a :: l, r.1 ≤ q.1)
        ∧ ∃ l1 l2, a :: l = l1 ++ r :: l2 ∧ ∀ q ∈ l1, r.1 < q.1 := by
  induction l with
  | nil =>
      intro a
      refine ⟨a, rfl, List.mem_cons_self _ _, ?_, [], [], rfl, ?_⟩
      · intro q hq
        rw [List.mem_singleton] at hq
        subst hq
        exact le_refl _
      · intro q hq
        simp at hq
  | cons b t ih =>
      intro a
      have hfold : (b :: t).foldl selReplaceIfCloser (some a)
          = t.foldl selReplaceIfCloser (selReplaceIfCloser (some a) b) := rfl
      by_cases hba : b.1 < a.1
      · have hstep : selReplaceIfCloser (some a) b = some b := by
          simp only [selReplaceIfCloser]
          rw [if_pos hba]
        rw [hfold, hstep]
        obtain ⟨r, hr, hmem, hmin, l1, l2, hdec, hstrict⟩ := ih b
        refine ⟨r, hr, List.mem_cons_of_mem _ hmem, ?_, a :: l1, l2, ?_, ?_⟩
        · intro q hq
          rcases List.mem_cons.mp hq with heq | hq2
          · subst heq
            exact le_trans (hmin _ (List.mem_cons_self _ _)) (le_of_lt hba)
          · exact hmin _ hq2
        · simp only [List.cons_append]
          rw [← hdec]
        · intro q hq
          rcases List.mem_cons.mp hq with heq | hq2
          · subst heq
            exact lt_of_le_of_lt (hmin _ (List.mem_cons_self _ _)) hba
          · exact hstrict _ hq2
      · have hstep : selReplaceIfCloser (some a) b = some a := by
          simp only [selReplaceIfCloser]
          rw [if_neg hba]
        have hab : a.1 ≤ b.1 := le_of_not_lt hba
        rw [hfold, hstep]
        obtain ⟨r, hr, hmem, hmin, l1, l2, hdec, hstrict⟩ := ih a
        refine ⟨r, hr, ?_, ?_, ?_⟩
        · rcases List.mem_cons.mp hmem with heq | hmem2
          · exact heq ▸ List.mem_cons_self _ _
          · exact List.mem_cons_of_mem _ (List.mem_cons_of_mem _ hmem2)
        · intro q hq
          rcases List.mem_cons.mp hq with heq | hq2
          · subst heq
            exact hmin _ (List.mem_cons_self _ _)
          · rcases List.mem_cons.mp hq2 with heq | hq3
            · subst heq
              exact le_trans (hmin _ (List.mem_cons_self _ _)) hab
            · exact hmin _ (List.mem_cons_of_mem _ hq3)
        · cases l1 with
          | nil =>
              simp only [List.nil_append] at hdec
              have hr2 : r = a := (((List.cons.injEq _ _ _ _).mp hdec).1).symm
              refine ⟨[], b :: t, ?_, ?_⟩
              · simp only [List.nil_append, hr2]
              · intro q hq
                simp at hq
          | cons h1 t1 =>
              have hh1 : h1 = a := (((List.cons.injEq _ _ _ _).mp hdec).1).symm
              have ht : t = t1 ++ r :: l2 := ((List.cons.injEq _ _ _ _).mp hdec).2
              have hra : r.1 < a.1 := hstrict a (List.mem_cons.mpr (Or.inl hh1.symm))
              refine ⟨a :: b :: t1, l2, ?_, ?_⟩
              · simp only [List.cons_append]
                rw [← ht]
              · intro q hq
                rcases List.mem_cons.mp hq with heq | hq2
                · subst heq
                  exact hra
                · rcases List.mem_cons.mp hq2 with heq | hq3
                  · subst heq
                    exact lt_of_lt_of_le hra hab
                  · exact hstrict _ (List.mem_cons_of_mem h1 hq3)

/-- The candidate fold skips rejected candidates, so it equals the fold of
`selReplaceIfCloser` over the scored survivor list (any accumulator). -/
theorem candFold_eq_scoredFold (ray : Ray) (cands : List Candidate) :
    ∀ acc,
      cands.foldl
        (fun acc c =>
          match scoreCandidate ray c.remote with
          | none => acc
          | some d => selReplaceIfCloser acc (d, c))
        acc
      = (scored ray cands).foldl selReplaceIfCloser acc := by
  induction cands with
  | nil => intro acc; rfl
  | cons c t ih =>
      intro acc
      cases h : scoreCandidate ray c.remote with
      | none =>
          have hs : scored ray (c :: t) = scored ray t := by
            unfold scored
            rw [List.filterMap_cons, h]
            rfl
          rw [hs]
          simp only [List.foldl_cons, h]
          exact ih acc
      | some d =>
          have hs : scored ray (c :: t) = (d, c) :: scored ray t := by
            unfold scored
            rw [List.filterMap_cons, h]
            rfl
          rw [hs]
          simp only [List.foldl_cons, h]
          exact ih (selReplaceIfCloser acc (d, c))

/-- `closestFold` is the fold of `selReplaceIfCloser` over the scored
survivor list. -/
theorem closestFold_eq_scored (ray : Ray) (cands : List Candidate) :
    closestFold ray cands = (scored ray cands).foldl selReplaceIfCloser none :=
  candFold_eq_scoredFold ray cands none

/-- `closestFold` characterized: it is `none` exactly when no candidate
survives, and otherwise yields the first minimum-score survivor. -/
theorem closestFold_none (ray : Ray) (cands : List Candidate)
    (h : scored ray cands = []) : closestFold ray cands = none := by
  rw [closestFold_eq_scored, h]
  rfl

theorem closestFold_some (ray : Ray) (cands : List Candidate) (p : ℝ × Candidate)
    (h : closestFold ray cands = some p) :
    p ∈ scored ray cands
    ∧ (∀ q ∈ scored ray cands, p.1 ≤ q.1)
    ∧ ∃ l1 l2, scored ray cands = l1 ++ p :: l2 ∧ ∀ q ∈ l1, p.1 < q.1 := by
  rw [closestFold_eq_scored] at h
  cases hs : scored ray cands with
  | nil =>
      rw [hs] at h
      simp at h
  | cons a t =>
      rw [hs] at h
      have hstep : (a :: t).foldl selReplaceIfCloser none
          = t.foldl selReplaceIfCloser (some a) := rfl
      rw [hstep] at h
      obtain ⟨r, hr, hmem, hmin, l1, l2, hdec, hstrict⟩ := selFold_spec t a
      rw [hr] at h
      have hp : p = r := (Option.some.injEq _ _).mp h.symm
      subst hp
      exact ⟨hmem, hmin, l1, l2, hdec, hstrict⟩

/-- Evaluation scheme for the no-field score: once the projection `t` and
the perpendicular distance `perp` are known and `t` is nonnegative, the
score is `perp + t` unless the cone test rejects. -/
theorem scoreCandidate_noField_eval (ray : Ray) (pos : V3) (t perp : ℝ)
    (ht : V3.dot (V3.sub pos ray.origin) ray.direction = t)
    (h0 : 0 ≤ t)
    (hperp : V3.dist pos (V3.add ray.origin (V3.smul t ray.direction)) = perp) :
    scoreCandidate ray (CandRemote.noField (some pos))
      = if perp > t * 0.1 then none else some (perp + t) := by
  simp only [scoreCandidate, ht, hperp]
  rw [if_neg (not_lt.mpr h0)]

theorem coneRay_point_eval (t : ℝ) :
    V3.add coneRay.origin (V3.smul t coneRay.direction) = ⟨t, 0, 0⟩ := by
  show V3.add ⟨0, 0, 0⟩ (V3.smul t ⟨1, 0, 0⟩) = ⟨t, 0, 0⟩
  unfold V3.add V3.smul
  simp only [V3.mk.injEq]
  refine ⟨by ring, by ring, by ring⟩

theorem coneRay_dot_eval (px py pz : ℝ) :
    V3.dot (V3.sub ⟨px, py, pz⟩ coneRay.origin) coneRay.direction = px := by
  show V3.dot (V3.sub ⟨px, py, pz⟩ ⟨0, 0, 0⟩) ⟨1, 0, 0⟩ = px
  unfold V3.sub V3.dot
  show (px - 0) * 1 + (py - 0) * 0 + (pz - 0) * 0 = px
  ring

theorem score_axis : scoreCandidate coneRay candAxis.remote = some 10 := by
  show scoreCandidate coneRay (CandRemote.noField (some ⟨10, 0, 0⟩)) = some 10
  have hd : V3.dist ⟨10, 0, 0⟩ (V3.add coneRay.origin (V3.smul 10 coneRay.direction)) = 0 := by
    rw [coneRay_point_eval, V3.dist_self]
  rw [scoreCandidate_noField_eval coneRay ⟨10, 0, 0⟩ 10 0 (coneRay_dot_eval 10 0 0)
    (by norm_num) hd]
  rw [if_neg (by norm_num)]
  norm_num

theorem score_off : scoreCandidate coneRay candOff.remote = some (0.99 + 10) := by
  show scoreCandidate coneRay (CandRemote.noField (some ⟨10, 0.99, 0⟩)) = some (0.99 + 10)
  have hd : V3.dist ⟨10, 0.99, 0⟩ (V3.add coneRay.origin (V3.smul 10 coneRay.direction))
      = 0.99 := by
    rw [coneRay_point_eval, V3.dist_eq]
    show Real.sqrt (((10:ℝ) - 10) ^ 2 + ((0.99:ℝ) - 0) ^ 2 + ((0:ℝ) - 0) ^ 2) = 0.99
    rw [show ((10:ℝ) - 10) ^ 2 + ((0.99:ℝ) - 0) ^ 2 + ((0:ℝ) - 0) ^ 2 = 0.99 ^ 2 by norm_num,
      Real.sqrt_sq (by norm_num : (0:ℝ) ≤ 0.99)]
  rw [scoreCandidate_noField_eval coneRay ⟨10, 0.99, 0⟩ 10 0.99 (coneRay_dot_eval 10 0.99 0)
    (by norm_num) hd]
  rw [if_neg (by norm_num)]

theorem score_reject101 :
    scoreCandidate coneRay (CandRemote.noField (some ⟨10, 1.01, 0⟩)) = none := by
  have hd : V3.dist ⟨10, 1.01, 0⟩ (V3.add coneRay.origin (V3.smul 10 coneRay.direction))
      = 1.01 := by
    rw [coneRay_point_eval, V3.dist_eq]
    show Real.sqrt (((10:ℝ) - 10) ^ 2 + ((1.01:ℝ) - 0) ^ 2 + ((0:ℝ) - 0) ^ 2) = 1.01
    rw [show ((10:ℝ) - 10) ^ 2 + ((1.01:ℝ) - 0) ^ 2 + ((0:ℝ) - 0) ^ 2 = 1.01 ^ 2 by norm_num,
      Real.sqrt_sq (by norm_num : (0:ℝ) ≤ 1.01)]
  rw [scoreCandidate_noField_eval coneRay ⟨10, 1.01, 0⟩ 10 1.01 (coneRay_dot_eval 10 1.01 0)
    (by norm_num) hd]
  rw [if_pos (by norm_num)]

theorem score_five : scoreCandidate coneRay candFive.remote = some 5 := by
  show scoreCandidate coneRay (CandRemote.noField (some ⟨5, 0, 0⟩)) = some 5
  have hd : V3.dist ⟨5, 0, 0⟩ (V3.add coneRay.origin (V3.smul 5 coneRay.direction)) = 0 := by
    rw [coneRay_point_eval, V3.dist_self]
  rw [scoreCandidate_noField_eval coneRay ⟨5, 0, 0⟩ 5 0 (coneRay_dot_eval 5 0 0)
    (by norm_num) hd]
  rw [if_neg (by norm_num)]
  norm_num

theorem fold_pair : closestFold coneRay [candOff, candAxis] = some (10, candAxis) := by
  unfold closestFold
  simp only [List.foldl_cons, List.foldl_nil, score_off, score_axis]
  simp only [selReplaceIfCloser]
  rw [if_pos (by norm_num : (10:ℝ) < 0.99 + 10)]

theorem fold_five : closestFold coneRay [candFive] = some (5, candFive) := by
  unfold closestFold
  simp only [List.foldl_cons, List.foldl_nil, score_five]
  rfl

theorem upd_pair : update_selection coneRay [candOff, candAxis] = ⟨some candAxis, none, true⟩ := by
  unfold update_selection
  rw [fold_pair]
  rfl

theorem upd_five : update_selection coneRay [candFive] = ⟨some candFive, none, true⟩ := by
  unfold update_selection
  rw [fold_five]
  rfl

/-! Concrete ring evaluations. -/

theorem hand_zero_qualifies :
    ringQualifies ⟨0, 0, 0⟩ (InputDataType.hand ⟨0, 0, 0⟩ QuatR.identity) = true := by
  simp only [ringQualifies]
  rw [V3.dist_self]
  simp only [decide_eq_true_eq]
  norm_num

theorem tipGrabPoint_identity : tipGrabPoint ⟨0, 0, 0⟩ QuatR.identity = ⟨0, 0, 0.05⟩ := by
  unfold tipGrabPoint
  rw [QuatR.identity_mulVec3]
  unfold V3.add V3.smul
  simp only [V3.mk.injEq]
  refine ⟨by ring, by ring, by ring⟩

theorem claimTipForwardPoint_identity :
    claimTipForwardPoint ⟨0, 0, 0⟩ QuatR.identity = ⟨0, 0, -0.05⟩ := by
  unfold claimTipForwardPoint
  rw [QuatR.identity_mulVec3]
  unfold V3.add V3.smul
  simp only [V3.mk.injEq]
  refine ⟨by norm_num, by norm_num, by norm_num⟩

theorem tip_backward_dist :
    V3.dist ⟨0, 0, -0.05⟩ (tipGrabPoint ⟨0, 0, 0⟩ QuatR.identity) = 0.1 := by
  rw [tipGrabPoint_identity, V3.dist_eq]
  show Real.sqrt (((0:ℝ) - 0) ^ 2 + ((0:ℝ) - 0) ^ 2 + ((-0.05:ℝ) - 0.05) ^ 2) = 0.1
  rw [show ((0:ℝ) - 0) ^ 2 + ((0:ℝ) - 0) ^ 2 + ((-0.05:ℝ) - 0.05) ^ 2 = 0.1 ^ 2 by norm_num,
    Real.sqrt_sq (by norm_num : (0:ℝ) ≤ 0.1)]

theorem tip_backward_not_qualifies :
    ringQualifies ⟨0, 0, -0.05⟩ (InputDataType.tip ⟨0, 0, 0⟩ QuatR.identity) = false := by
  simp only [ringQualifies]
  rw [tip_backward_dist]
  simp only [decide_eq_false_iff_not]
  norm_num

/-! ## Claim theorems. -/

/-- Claim C4: for every three input points, the pose estimator computes
`P1 = (bc·A + ca·B + ab·C)/(ab+bc+ca)` with `ab`, `bc`, `ca` the squared
pairwise distances, computes `P2` as the average of A, B, C weighted by each
vertex's squared distance to `P1`, and returns as final point the linear
interpolation of `P2` toward `P1` at factor 0.5: the source computation
(`main.rs` lines 258-268) coincides with the spec formulas. -/
theorem pose_point_matches_spec :
    ∀ a b c : V3,
      trianglePointA a b c = specP1 a b c
      ∧ trianglePoint2 a b c = specP2 a b c
      ∧ triangleFinalPoint a b c = specFinalPoint a b c := by
  intro a b c
  have h1 : trianglePointA a b c = specP1 a b c := by
    simp only [trianglePointA, specP1, V3.divScalar, V3.smul, V3.add, V3.mk.injEq]
    refine ⟨by ring, by ring, by ring⟩
  have h2 : trianglePoint2 a b c = specP2 a b c := by
    simp only [trianglePoint2, specP2, h1]
    simp only [V3.divScalar, V3.smul, V3.add, V3.mk.injEq]
    refine ⟨by ring, by ring, by ring⟩
  refine ⟨h1, h2, ?_⟩
  simp only [triangleFinalPoint, specFinalPoint, V3.lerp, h1, h2]
  simp only [V3.add, V3.smul, V3.sub, V3.mk.injEq]
  refine ⟨by ring, by ring, by ring⟩

/-- Claim C7: for every non-degenerate triangle (A, B, C) — cross product of
the edge vectors nonzero — the pose estimator's normal
`normalize(cross(B−A, C−A))` (`main.rs` lines 269-271) is a unit vector
orthogonal to both `B−A` and `C−A`, and reversing the point order to
(C, B, A) negates the computed normal. -/
theorem pose_normal_properties :
    ∀ a b c : V3, V3.cross (V3.sub b a) (V3.sub c a) ≠ ⟨0, 0, 0⟩ →
      V3.length (triangleNormal a b c) = 1
      ∧ V3.dot (triangleNormal a b c) (V3.sub b a) = 0
      ∧ V3.dot (triangleNormal a b c) (V3.sub c a) = 0
      ∧ triangleNormal c b a = V3.neg (triangleNormal a b c) := by
  intro a b c h
  refine ⟨?_, ?_, ?_, ?_⟩
  · unfold triangleNormal
    exact V3.length_normalize _ h
  · unfold triangleNormal V3.normalize
    rw [V3.dot_smul_left, V3.dot_cross_left, mul_zero]
  · unfold triangleNormal V3.normalize
    rw [V3.dot_smul_left, V3.dot_cross_right, mul_zero]
  · unfold triangleNormal
    rw [cross_reverse a b c, V3.normalize_neg]

/-- Witness for C7 at the unit right triangle A = 0, B = e₁, C = e₂. -/
theorem pose_normal_properties_witness :
    V3.length (triangleNormal ⟨0, 0, 0⟩ ⟨1, 0, 0⟩ ⟨0, 1, 0⟩) = 1
    ∧ triangleNormal ⟨0, 1, 0⟩ ⟨1, 0, 0⟩ ⟨0, 0, 0⟩
        = V3.neg (triangleNormal ⟨0, 0, 0⟩ ⟨1, 0, 0⟩ ⟨0, 1, 0⟩) := by
  have hne : V3.cross (V3.sub ⟨1, 0, 0⟩ ⟨0, 0, 0⟩) (V3.sub ⟨0, 1, 0⟩ ⟨0, 0, 0⟩)
      ≠ (⟨0, 0, 0⟩ : V3) := by
    unfold V3.sub V3.cross
    intro hc
    rw [V3.mk.injEq] at hc
    norm_num at hc
  have h := pose_normal_properties ⟨0, 0, 0⟩ ⟨1, 0, 0⟩ ⟨0, 1, 0⟩ hne
  exact ⟨h.1, h.2.2.2⟩

/-- Counterexample to claim C2 as stated: with the tracked target radius
held at 0 and the object radius at 1, one `Mover::update` call leaves a
residual of 0.95, not within even twice the claimed factor of ≈0.05. -/
theorem mover_rate_counterexample :
    moverStepLen 0 1 = 0.95 ∧ ¬ |moverStepLen 0 1 - 0| ≤ 0.1 * |1 - (0:ℝ)| := by
  constructor
  · unfold moverStepLen moverLerp
    norm_num
  · unfold moverStepLen moverLerp
    intro hle
    rw [show (0:ℝ) + (1 - 0) * 0.95 - 0 = 0.95 by ring] at hle
    rw [show |(0.95:ℝ)| = 0.95 from abs_of_pos (by norm_num)] at hle
    norm_num at hle

/-- Claim C2 (amended): with the tracked target transform held constant,
the managed radius converges monotonically — strictly while off target —
and the residual is multiplied by exactly 0.95 per call (it shrinks by 5%),
so it tends to zero. -/
theorem mover_converges_geometric :
    ∀ target sel : ℝ,
      (∀ n, moverRadius target sel n - target = 0.95 ^ n * (sel - target))
      ∧ (∀ n, |moverRadius target sel (n + 1) - target|
            ≤ |moverRadius target sel n - target|)
      ∧ (sel ≠ target → ∀ n, |moverRadius target sel (n + 1) - target|
            < |moverRadius target sel n - target|)
      ∧ (∀ ε : ℝ, 0 < ε → ∃ N, ∀ n, N ≤ n → |moverRadius target sel n - target| < ε) := by
  intro target sel
  have hstep : ∀ n, moverRadius target sel (n + 1) - target
      = 0.95 * (moverRadius target sel n - target) := by
    intro n
    show moverStepLen target (moverRadius target sel n) - target = _
    unfold moverStepLen moverLerp
    ring
  have hformula : ∀ n, moverRadius target sel n - target = 0.95 ^ n * (sel - target) := by
    intro n
    induction n with
    | zero => simp [moverRadius]
    | succ k ih =>
        rw [hstep k, ih, pow_succ]
        ring
  have habs : ∀ n, |moverRadius target sel n - target| = 0.95 ^ n * |sel - target| := by
    intro n
    rw [hformula n, abs_mul, abs_pow, abs_of_pos (show (0:ℝ) < 0.95 by norm_num)]
  refine ⟨hformula, ?_, ?_, ?_⟩
  · intro n
    rw [hstep n, abs_mul, abs_of_pos (show (0:ℝ) < 0.95 by norm_num)]
    nlinarith [abs_nonneg (moverRadius target sel n - target)]
  · intro hne n
    have hd : moverRadius target sel n - target ≠ 0 := by
      rw [hformula n]
      exact mul_ne_zero (pow_ne_zero _ (by norm_num)) (sub_ne_zero.mpr hne)
    have hpos : 0 < |moverRadius target sel n - target| := abs_pos.mpr hd
    rw [hstep n, abs_mul, abs_of_pos (show (0:ℝ) < 0.95 by norm_num)]
    nlinarith
  · intro ε hε
    by_cases hs : sel = target
    · refine ⟨0, fun n _ => ?_⟩
      rw [habs n, hs, sub_self, abs_zero, mul_zero]
      exact hε
    · have hD : 0 < |sel - target| := abs_pos.mpr (sub_ne_zero.mpr hs)
      obtain ⟨N, hN⟩ := exists_pow_lt_of_lt_one (div_pos hε hD) (by norm_num : (0.95:ℝ) < 1)
      refine ⟨N, fun n hn => ?_⟩
      rw [habs n]
      have hpow : (0.95:ℝ) ^ n ≤ 0.95 ^ N :=
        pow_le_pow_of_le_one (by norm_num) (by norm_num) hn
      calc (0.95:ℝ) ^ n * |sel - target|
          ≤ 0.95 ^ N * |sel - target| :=
            mul_le_mul_of_nonneg_right hpow (abs_nonneg _)
        _ < ε := (lt_div_iff₀ hD).mp hN

/-- Witness for C2's amended theorem at target 0, object radius 1, ε = 1/2. -/
theorem mover_converges_geometric_witness :
    |moverRadius 0 1 1 - 0| < |moverRadius 0 1 0 - 0|
    ∧ ∃ N, ∀ n, N ≤ n → |moverRadius 0 1 n - 0| < 1 / 2 :=
  ⟨(mover_converges_geometric 0 1).2.2.1 (by norm_num) 0,
    (mover_converges_geometric 0 1).2.2.2 (1 / 2) (by norm_num)⟩

/-- Claim C1: the code leaks the reparent lock.  With a selection present
and the lock acquired, a failure of anchor-node creation, of the spatial
export, or of the bounding-box query makes `capture_selected` return none
with `lock` in its operation trace and no `unlock` ever issued
(`selection.rs` lines 79, 91, 96: `.ok()?` early returns after line 75's
lock). -/
theorem capture_selected_leaks_lock :
    capture_selected ⟨some leakCand⟩ ⟨true, false, true, none⟩
        = (⟨none⟩, none, [SelOp.lock, SelOp.createAnchor])
    ∧ capture_selected ⟨some leakCand⟩ ⟨true, true, false, none⟩
        = (⟨none⟩, none,
            [SelOp.lock, SelOp.createAnchor, SelOp.setAnchorTransform, SelOp.exportAnchor])
    ∧ capture_selected ⟨some leakCand⟩ ⟨true, true, true, none⟩
        = (⟨none⟩, none,
            [SelOp.lock, SelOp.createAnchor, SelOp.setAnchorTransform, SelOp.exportAnchor,
              SelOp.reparent, SelOp.clearLines, SelOp.enableTargetModel, SelOp.localBBQuery])
    ∧ SelOp.lock ∈ [SelOp.lock, SelOp.createAnchor]
    ∧ SelOp.unlock ∉ [SelOp.lock, SelOp.createAnchor]
    ∧ SelOp.unlock ∉
        [SelOp.lock, SelOp.createAnchor, SelOp.setAnchorTransform, SelOp.exportAnchor,
          SelOp.reparent, SelOp.clearLines, SelOp.enableTargetModel, SelOp.localBBQuery] :=
  ⟨rfl, rfl, rfl, by decide, by decide, by decide⟩

/-- Claim C10: `capture_selected` takes the stored best before attempting
the lock (`selection.rs` line 74), so after any call the stored best is
empty, and a second call performs no remote operation (in particular no
lock attempt) and returns none. -/
theorem capture_selected_consumes_selection :
    ∀ (st : SelectorState) (o o2 : CaptureOracles),
      ((capture_selected st o).1).selection = none
      ∧ capture_selected (capture_selected st o).1 o2
          = (⟨none⟩, none, ([] : List SelOp)) := by
  intro st o o2
  have h1 : (capture_selected st o).1 = ⟨none⟩ := by
    rcases st with ⟨sel⟩
    cases sel with
    | none => rfl
    | some c =>
        rcases o with ⟨lok, cok, eok, bb⟩
        cases lok <;> cases cok <;> cases eok <;> cases bb <;> rfl
  refine ⟨by rw [h1], ?_⟩
  rw [h1]
  rfl

theorem dist_axis10 :
    V3.dist ⟨10, 0, 0⟩ (V3.add coneRay.origin (V3.smul 10 coneRay.direction)) = 0 := by
  rw [coneRay_point_eval, V3.dist_self]

theorem dist_off101 :
    V3.dist ⟨10, 1.01, 0⟩ (V3.add coneRay.origin (V3.smul 10 coneRay.direction)) = 1.01 := by
  rw [coneRay_point_eval, V3.dist_eq]
  show Real.sqrt (((10:ℝ) - 10) ^ 2 + ((1.01:ℝ) - 0) ^ 2 + ((0:ℝ) - 0) ^ 2) = 1.01
  rw [show ((10:ℝ) - 10) ^ 2 + ((1.01:ℝ) - 0) ^ 2 + ((0:ℝ) - 0) ^ 2 = 1.01 ^ 2 by norm_num,
    Real.sqrt_sq (by norm_num : (0:ℝ) ≤ 1.01)]

/-- Claim C3: the no-field branch rejects a candidate behind the ray origin,
rejects one whose perpendicular distance exceeds `0.1 × t`, and otherwise
scores `perp + t`; at `t = 10` a candidate with `perp = 1.01` is rejected,
one with `perp = 0.99` is accepted with score `0.99 + 10`, and the on-axis
candidate (`perp = 0`, score 10) is selected over it. -/
theorem selector_cone_scoring :
    (∀ (ray : Ray) (pos : V3),
        V3.dot (V3.sub pos ray.origin) ray.direction < 0 →
        scoreCandidate ray (CandRemote.noField (some pos)) = none)
    ∧ (∀ (ray : Ray) (pos : V3),
        0 ≤ V3.dot (V3.sub pos ray.origin) ray.direction →
        V3.dist pos (V3.add ray.origin
            (V3.smul (V3.dot (V3.sub pos ray.origin) ray.direction) ray.direction))
          > V3.dot (V3.sub pos ray.origin) ray.direction * 0.1 →
        scoreCandidate ray (CandRemote.noField (some pos)) = none)
    ∧ (∀ (ray : Ray) (pos : V3),
        0 ≤ V3.dot (V3.sub pos ray.origin) ray.direction →
        V3.dist pos (V3.add ray.origin
            (V3.smul (V3.dot (V3.sub pos ray.origin) ray.direction) ray.direction))
          ≤ V3.dot (V3.sub pos ray.origin) ray.direction * 0.1 →
        scoreCandidate ray (CandRemote.noField (some pos))
          = some (V3.dist pos (V3.add ray.origin
                (V3.smul (V3.dot (V3.sub pos ray.origin) ray.direction) ray.direction))
              + V3.dot (V3.sub pos ray.origin) ray.direction))
    ∧ scoreCandidate coneRay (CandRemote.noField (some ⟨10, 1.01, 0⟩)) = none
    ∧ scoreCandidate coneRay (CandRemote.noField (some ⟨10, 0.99, 0⟩)) = some (0.99 + 10)
    ∧ scoreCandidate coneRay (CandRemote.noField (some ⟨10, 0, 0⟩)) = some 10
    ∧ (update_selection coneRay [candOff, candAxis]).selection = some candAxis := by
  refine ⟨?_, ?_, ?_, score_reject101, score_off, score_axis, ?_⟩
  · intro ray pos h
    simp only [scoreCandidate]
    rw [if_pos h]
  · intro ray pos h0 h1
    simp only [scoreCandidate]
    rw [if_neg (not_lt.mpr h0), if_pos h1]
  · intro ray pos h0 h2
    simp only [scoreCandidate]
    rw [if_neg (not_lt.mpr h0), if_neg (not_lt.mpr h2)]
  · rw [upd_pair]

/-- Witness for C3, instantiating the three conditional parts: a candidate
behind the origin is rejected, the `perp = 1.01` candidate trips the cone
test, and the on-axis candidate scores `0 + 10`. -/
theorem selector_cone_scoring_witness :
    scoreCandidate coneRay (CandRemote.noField (some ⟨-1, 0, 0⟩)) = none
    ∧ scoreCandidate coneRay (CandRemote.noField (some ⟨10, 1.01, 0⟩)) = none
    ∧ scoreCandidate coneRay (CandRemote.noField (some ⟨10, 0, 0⟩)) = some (0 + 10) := by
  refine ⟨?_, ?_, ?_⟩
  · exact selector_cone_scoring.1 coneRay ⟨-1, 0, 0⟩
      (by rw [coneRay_dot_eval]; norm_num)
  · exact selector_cone_scoring.2.1 coneRay ⟨10, 1.01, 0⟩
      (by rw [coneRay_dot_eval]; norm_num)
      (by rw [coneRay_dot_eval, dist_off101]; norm_num)
  · have h3 := selector_cone_scoring.2.2.1 coneRay ⟨10, 0, 0⟩
      (by rw [coneRay_dot_eval]; norm_num)
      (by rw [coneRay_dot_eval, dist_axis10]; norm_num)
    rw [coneRay_dot_eval, dist_axis10] at h3
    exact h3

/-- Claim C6: `update_selection` stores as best the surviving candidate with
minimum score, first encountered on ties; with no survivor (including zero
candidates) it stores no best and clears the visualization. -/
theorem selector_min_first_selection :
    ∀ (ray : Ray) (cands : List Candidate),
      (scored ray cands = [] → update_selection ray cands = ⟨none, none, false⟩)
      ∧ (∀ c, (update_selection ray cands).selection = some c →
          ∃ d, (d, c) ∈ scored ray cands
            ∧ (∀ q ∈ scored ray cands, d ≤ q.1)
            ∧ ∃ l1 l2, scored ray cands = l1 ++ (d, c) :: l2 ∧ ∀ q ∈ l1, d < q.1) := by
  intro ray cands
  constructor
  · intro h
    unfold update_selection
    rw [closestFold_none ray cands h]
  · intro c hc
    cases hcf : closestFold ray cands with
    | none =>
        rw [show update_selection ray cands = ⟨none, none, false⟩ from by
          unfold update_selection; rw [hcf]] at hc
        simp at hc
    | some p =>
        obtain ⟨d, cw⟩ := p
        have hu : update_selection ray cands
            = match cw.bb with
              | none => ⟨some cw, none, true⟩
              | some bb => ⟨some cw, some bb, false⟩ := by
          unfold update_selection
          rw [hcf]
        rw [hu] at hc
        have hcc : cw = c := by
          cases hbb : cw.bb with
          | none => rw [hbb] at hc; simpa using hc
          | some bb => rw [hbb] at hc; simpa using hc
        subst hcc
        obtain ⟨hmem, hmin, l1, l2, hdec, hstrict⟩ := closestFold_some ray cands (d, cw) hcf
        exact ⟨d, hmem, hmin, l1, l2, hdec, hstrict⟩

/-- Witness for C6: the empty candidate set clears everything, and a single
surviving candidate is characterized as the first minimum. -/
theorem selector_min_first_selection_witness :
    update_selection coneRay [] = ⟨none, none, false⟩
    ∧ ∃ d, (d, candFive) ∈ scored coneRay [candFive]
        ∧ (∀ q ∈ scored coneRay [candFive], d ≤ q.1)
        ∧ ∃ l1 l2, scored coneRay [candFive] = l1 ++ (d, candFive) :: l2
            ∧ ∀ q ∈ l1, d < q.1 := by
  refine ⟨(selector_min_first_selection coneRay []).1 rfl,
    (selector_min_first_selection coneRay [candFive]).2 candFive ?_⟩
  rw [upd_five]

/-- Claim C9: when a best candidate was picked but its bounding-box query
fails, the stored selection keeps the newly picked candidate, the lines are
cleared, and the `warn!` diagnostic fires. -/
theorem selector_bb_failure :
    ∀ (ray : Ray) (cands : List Candidate) (d : ℝ) (c : Candidate),
      closestFold ray cands = some (d, c) → c.bb = none →
      update_selection ray cands = ⟨some c, none, true⟩ := by
  intro ray cands d c hcf hbb
  unfold update_selection
  rw [hcf]
  show (match c.bb with
    | none => (⟨some c, none, true⟩ : SelOut)
    | some bb => ⟨some c, some bb, false⟩) = ⟨some c, none, true⟩
  rw [hbb]

/-- Witness for C9 at the single candidate at `(5, 0, 0)` with a failing
bounding-box query. -/
theorem selector_bb_failure_witness :
    update_selection coneRay [candFive] = ⟨some candFive, none, true⟩ :=
  selector_bb_failure coneRay [candFive] 5 candFive fold_five rfl

/-- Claim C5: the ring's grab/attach cycle.  A grab-start frame with zero
qualifying inputs leaves the state Idle; a grab-release frame whose single
qualifying input's try-capture succeeds attaches to it; a grab-start frame
while attached releases the capture and returns to Idle. -/
theorem ring_grab_attach_cycle :
    (∀ (grab : FrameGrab) (pos : V3) (inputs : List (InputData × MethodId))
        (capture_ok : MethodId → Bool),
        grab.actor_started = true →
        inputs.filter (fun p => ringQualifies pos p.1.input) = [] →
        (ringUpdate none grab pos inputs capture_ok).attached_to = none)
    ∧ (∀ (grab : FrameGrab) (pos : V3) (i : InputData) (m : MethodId)
        (inputs : List (InputData × MethodId)) (capture_ok : MethodId → Bool),
        grab.actor_stopped = true →
        inputs.filter (fun p => ringQualifies pos p.1.input) = [(i, m)] →
        capture_ok m = true →
        (ringUpdate none grab pos inputs capture_ok).attached_to = some m
        ∧ (ringUpdate none grab pos inputs capture_ok).capture_tried = some m)
    ∧ (∀ (grab : FrameGrab) (pos : V3) (inputs : List (InputData × MethodId))
        (m : MethodId) (capture_ok : MethodId → Bool),
        grab.actor_started = true → grab.actor_stopped = false →
        (ringUpdate (some m) grab pos inputs capture_ok).attached_to = none
        ∧ (ringUpdate (some m) grab pos inputs capture_ok).released = some m) := by
  refine ⟨?_, ?_, ?_⟩
  · intro grab pos inputs capture_ok _ hf
    simp [ringUpdate, get_input_to_capture, hf, ringReduce]
  · intro grab pos i m inputs capture_ok hstop hf hcap
    refine ⟨?_, ?_⟩ <;>
      simp [ringUpdate, get_input_to_capture, hf, ringReduce, hstop, hcap]
  · intro grab pos inputs m capture_ok hstart hstop
    refine ⟨?_, ?_⟩ <;> simp [ringUpdate, hstart, hstop]

/-- Witness for C5: an empty frame under a grab start stays Idle; a single
in-range hand on a grab release attaches as method 7; a grab start while
attached to 7 releases it. -/
theorem ring_grab_attach_cycle_witness :
    (ringUpdate none ⟨true, true, false⟩ ⟨0, 0, 0⟩ [] (fun _ => true)).attached_to = none
    ∧ (ringUpdate none ⟨false, false, true⟩ ⟨0, 0, 0⟩
          [(⟨InputDataType.hand ⟨0, 0, 0⟩ QuatR.identity, 0.3⟩, 7)]
          (fun _ => true)).attached_to = some 7
    ∧ (ringUpdate (some 7) ⟨true, false, false⟩ ⟨0, 0, 0⟩ [] (fun _ => true)).attached_to = none
    ∧ (ringUpdate (some 7) ⟨true, false, false⟩ ⟨0, 0, 0⟩ [] (fun _ => true)).released
        = some 7 := by
  have hf1 : ([(⟨InputDataType.hand ⟨0, 0, 0⟩ QuatR.identity, 0.3⟩, 7)]
        : List (InputData × MethodId)).filter
        (fun p => ringQualifies ⟨0, 0, 0⟩ p.1.input)
      = [(⟨InputDataType.hand ⟨0, 0, 0⟩ QuatR.identity, 0.3⟩, 7)] := by
    simp [List.filter_cons, hand_zero_qualifies]
  refine ⟨?_, ?_, ?_, ?_⟩
  · exact ring_grab_attach_cycle.1 ⟨true, true, false⟩ ⟨0, 0, 0⟩ [] (fun _ => true) rfl rfl
  · exact (ring_grab_attach_cycle.2.1 ⟨false, false, true⟩ ⟨0, 0, 0⟩
      ⟨InputDataType.hand ⟨0, 0, 0⟩ QuatR.identity, 0.3⟩ 7
      [(⟨InputDataType.hand ⟨0, 0, 0⟩ QuatR.identity, 0.3⟩, 7)] (fun _ => true)
      rfl hf1 rfl).1
  · exact (ring_grab_attach_cycle.2.2 ⟨true, false, false⟩ ⟨0, 0, 0⟩ [] 7 (fun _ => true)
      rfl rfl).1
  · exact (ring_grab_attach_cycle.2.2 ⟨true, false, false⟩ ⟨0, 0, 0⟩ [] 7 (fun _ => true)
      rfl rfl).2

/-- Counterexample to claim C8 as stated.  A tip at the reference origin
with identity orientation: the point 0.05 m along its forward (−Z) axis is
exactly `(0, 0, -0.05)` — the claim would have a handle there qualify — yet
the code returns no attachable input (it offsets along +Z instead).  And
with two qualifying hand inputs of equal device-reported distance, the code
returns the second, not the first (its `reduce` keeps the later element on
ties). -/
theorem ring_capture_claim_counterexample :
    V3.dist ⟨0, 0, -0.05⟩ (claimTipForwardPoint ⟨0, 0, 0⟩ QuatR.identity) < 0.05
    ∧ get_input_to_capture ⟨0, 0, -0.05⟩
        [(⟨InputDataType.tip ⟨0, 0, 0⟩ QuatR.identity, 1⟩, 3)] = none
    ∧ get_input_to_capture ⟨0, 0, 0⟩
        [(⟨InputDataType.hand ⟨0, 0, 0⟩ QuatR.identity, 1⟩, 1),
          (⟨InputDataType.hand ⟨0, 0, 0⟩ QuatR.identity, 1⟩, 2)]
        = some (⟨InputDataType.hand ⟨0, 0, 0⟩ QuatR.identity, 1⟩, 2) := by
  refine ⟨?_, ?_, ?_⟩
  · rw [claimTipForwardPoint_identity, V3.dist_self]
    norm_num
  · unfold get_input_to_capture
    rw [show ([(⟨InputDataType.tip ⟨0, 0, 0⟩ QuatR.identity, 1⟩, 3)]
          : List (InputData × MethodId)).filter
          (fun p => ringQualifies ⟨0, 0, -0.05⟩ p.1.input) = [] from by
      simp [List.filter_cons, tip_backward_not_qualifies]]
    rfl
  · unfold get_input_to_capture
    rw [show ([(⟨InputDataType.hand ⟨0, 0, 0⟩ QuatR.identity, 1⟩, 1),
            (⟨InputDataType.hand ⟨0, 0, 0⟩ QuatR.identity, 1⟩, 2)]
          : List (InputData × MethodId)).filter
          (fun p => ringQualifies ⟨0, 0, 0⟩ p.1.input)
        = [(⟨InputDataType.hand ⟨0, 0, 0⟩ QuatR.identity, 1⟩, 1),
            (⟨InputDataType.hand ⟨0, 0, 0⟩ QuatR.identity, 1⟩, 2)] from by
      simp [List.filter_cons, hand_zero_qualifies]]
    show some (List.foldl ringMinStep
        (⟨InputDataType.hand ⟨0, 0, 0⟩ QuatR.identity, 1⟩, 1)
        [(⟨InputDataType.hand ⟨0, 0, 0⟩ QuatR.identity, 1⟩, 2)]) = _
    simp only [List.foldl_cons, List.foldl_nil]
    norm_num [ringMinStep]

/-- Claim C8 (amended): pointer inputs are excluded; a tip qualifies exactly
when the handle is within 0.05 m of the tip's origin offset 0.05 m along
its +Z axis (backward relative to this codebase's −Z forward convention); a
hand qualifies exactly when the handle is within 0.05 m of the wrist; and
among qualifying inputs the one with the smallest raw device-reported
distance is returned, ties broken in favor of the last encountered. -/
theorem ring_capture_selection_rule :
    (∀ pos : V3, ringQualifies pos InputDataType.pointer = false)
    ∧ (∀ (pos origin : V3) (q : QuatR),
        ringQualifies pos (InputDataType.tip origin q) = true
          ↔ V3.dist pos (tipGrabPoint origin q) < 0.05)
    ∧ (∀ (pos wrist : V3) (rot : QuatR),
        ringQualifies pos (InputDataType.hand wrist rot) = true
          ↔ V3.dist pos wrist < 0.05)
    ∧ (∀ (pos : V3) (inputs : List (InputData × MethodId)) (p : InputData × MethodId),
        get_input_to_capture pos inputs = some p →
        p ∈ inputs
        ∧ ringQualifies pos p.1.input = true
        ∧ (∀ q ∈ inputs.filter (fun r => ringQualifies pos r.1.input),
            p.1.distance ≤ q.1.distance)
        ∧ ∃ l1 l2, inputs.filter (fun r => ringQualifies pos r.1.input) = l1 ++ p :: l2
            ∧ ∀ q ∈ l2, p.1.distance < q.1.distance) := by
  refine ⟨?_, ?_, ?_, ?_⟩
  · intro pos
    rfl
  · intro pos origin q
    simp only [ringQualifies, decide_eq_true_eq]
  · intro pos wrist rot
    simp only [ringQualifies, decide_eq_true_eq]
  · intro pos inputs p h
    unfold get_input_to_capture at h
    cases hf : inputs.filter (fun r => ringQualifies pos r.1.input) with
    | nil =>
        rw [hf] at h
        simp [ringReduce] at h
    | cons a t =>
        rw [hf] at h
        simp only [ringReduce, Option.some.injEq] at h
        subst h
        obtain ⟨hmem, hmin, l1, l2, hdec, hstrict⟩ := ringFold_spec t a
        have hin : t.foldl ringMinStep a
            ∈ inputs.filter (fun r => ringQualifies pos r.1.input) := by
          rw [hf]
          exact hmem
        refine ⟨(List.mem_filter.mp hin).1, (List.mem_filter.mp hin).2, ?_, ?_⟩
        · intro q hq
          exact hmin q hq
        · exact ⟨l1, l2, hdec, hstrict⟩

/-- Witness for C8's amended theorem: a single in-range hand input is
returned and certified qualifying and minimal. -/
theorem ring_capture_selection_rule_witness :
    (⟨InputDataType.hand ⟨0, 0, 0⟩ QuatR.identity, 0.2⟩, 5)
      ∈ ([(⟨InputDataType.hand ⟨0, 0, 0⟩ QuatR.identity, 0.2⟩, 5)]
          : List (InputData × MethodId))
    ∧ ringQualifies ⟨0, 0, 0⟩ (InputDataType.hand ⟨0, 0, 0⟩ QuatR.identity) = true := by
  have hget : get_input_to_capture ⟨0, 0, 0⟩
      [(⟨InputDataType.hand ⟨0, 0, 0⟩ QuatR.identity, 0.2⟩, 5)]
      = some (⟨InputDataType.hand ⟨0, 0, 0⟩ QuatR.identity, 0.2⟩, 5) := by
    unfold get_input_to_capture
    rw [show ([(⟨InputDataType.hand ⟨0, 0, 0⟩ QuatR.identity, 0.2⟩, 5)]
          : List (InputData × MethodId)).filter
          (fun p => ringQualifies ⟨0, 0, 0⟩ p.1.input)
        = [(⟨InputDataType.hand ⟨0, 0, 0⟩ QuatR.identity, 0.2⟩, 5)] from by
      simp [List.filter_cons, hand_zero_qualifies]]
    rfl
  have happ := ring_capture_selection_rule.2.2.2 ⟨0, 0, 0⟩
    [(⟨InputDataType.hand ⟨0, 0, 0⟩ QuatR.identity, 0.2⟩, 5)]
    (⟨InputDataType.hand ⟨0, 0, 0⟩ QuatR.identity, 0.2⟩, 5) hget
  exact ⟨happ.1, happ.2.1⟩

end AbsoluteSolver
